import Mathlib

/-!
# Verification development for the rag-hq ingestion & retrieval code

Shallow embedding of the JavaScript sources:
* the bulk-processing manifest utilities (`clear-errors.js`, the status
  checker in the test bundle),
* the `RAGService` methods (`getOptimalTopK`, `cleanSourceName`,
  `processFile`, `processBulkDocuments`, `getCollectionStats`),
* and, where the repository's ingestion worker (`bulk-pdf-ingest.js`,
  referenced by the recovery scripts but not part of the provided
  sources) is needed, definitions modelled from the specification.

JS strings are modelled as `String`/`List Char`, SQLite rows as
structures, fallible code as `Except`, and external collaborators
(text splitter, embedder, parser) as function parameters.
-/

namespace RagHq

/-! ## Manifest data model

The SQLite table `bulk_files` has columns
`path, status, chunks_count, error, updated_at`.
Status values observed in the scripts: `queued`, `processing`,
`completed`, `error`. -/

inductive FileStatus where
  | queued
  | processing
  | completed
  | error
deriving DecidableEq, Repr

structure BulkFileRow where
  path : String
  status : FileStatus
  chunksCount : Nat
  errorMsg : Option String
  updatedAt : Nat
deriving DecidableEq, Repr

/-! ## Status summary (`checkStatus` in the status utility)

The SQL aggregate is a single pass:
```
COUNT(*) AS total,
SUM(CASE WHEN status = 'completed' THEN 1 ELSE 0 END) AS completed,
SUM(CASE WHEN status = 'error' THEN 1 ELSE 0 END) AS errors,
SUM(CASE WHEN status IN ('queued','processing') THEN 1 ELSE 0 END) AS pending,
SUM(chunks_count) AS total_chunks
```
-/

structure StatusStats where
  total : Nat
  completed : Nat
  errors : Nat
  pending : Nat
  totalChunks : Nat
deriving DecidableEq, Repr

def checkStatusStats (rows : List BulkFileRow) : StatusStats :=
  rows.foldl
    (fun s r =>
      { total := s.total + 1
        completed := s.completed + (if r.status = FileStatus.completed then 1 else 0)
        errors := s.errors + (if r.status = FileStatus.error then 1 else 0)
        pending := s.pending +
          (if r.status = FileStatus.queued ∨ r.status = FileStatus.processing then 1 else 0)
        totalChunks := s.totalChunks + r.chunksCount })
    ⟨0, 0, 0, 0, 0⟩

theorem checkStatusStats_foldl (rows : List BulkFileRow) (s : StatusStats) :
    rows.foldl
      (fun s r =>
        { total := s.total + 1
          completed := s.completed + (if r.status = FileStatus.completed then 1 else 0)
          errors := s.errors + (if r.status = FileStatus.error then 1 else 0)
          pending := s.pending +
            (if r.status = FileStatus.queued ∨ r.status = FileStatus.processing then 1 else 0)
          totalChunks := s.totalChunks + r.chunksCount })
      s =
    { total := s.total + rows.length
      completed := s.completed + rows.countP (fun r => decide (r.status = FileStatus.completed))
      errors := s.errors + rows.countP (fun r => decide (r.status = FileStatus.error))
      pending := s.pending + rows.countP
        (fun r => decide (r.status = FileStatus.queued ∨ r.status = FileStatus.processing))
      totalChunks := s.totalChunks + (rows.map (fun r => r.chunksCount)).sum } := by
  induction rows generalizing s with
  | nil => simp
  | cons r rest ih =>
      simp only [List.foldl_cons, ih, List.length_cons, List.countP_cons, List.map_cons,
        List.sum_cons, StatusStats.mk.injEq]
      refine ⟨?_, ?_, ?_, ?_, ?_⟩ <;> cases hr : r.status <;> (try simp [hr]) <;> omega

theorem countP_pending_split (rows : List BulkFileRow) :
    rows.countP
      (fun r => decide (r.status = FileStatus.queued) || decide (r.status = FileStatus.processing)) =
      rows.countP (fun r => decide (r.status = FileStatus.queued)) +
        rows.countP (fun r => decide (r.status = FileStatus.processing)) := by
  induction rows with
  | nil => simp
  | cons r rest ih =>
      simp only [List.countP_cons, ih]
      cases hr : r.status <;> simp [hr] <;> omega

theorem countP_status_partition (rows : List BulkFileRow) :
    rows.countP (fun r => decide (r.status = FileStatus.completed)) +
      rows.countP (fun r => decide (r.status = FileStatus.error)) +
      rows.countP
        (fun r => decide (r.status = FileStatus.queued) ||
          decide (r.status = FileStatus.processing)) =
      rows.length := by
  induction rows with
  | nil => simp
  | cons r rest ih =>
      simp only [List.countP_cons, List.length_cons]
      cases hr : r.status <;> simp [hr] <;> omega

/-- **C7** — the status summary over the manifest reports the total number
of files, the per-status counts (completed, error, and pending, where
pending covers both `queued` and `processing`), and the sum of
`chunks_count` over all entries; moreover completed + errors + pending
partition the total. -/
theorem checkStatusStats_spec (rows : List BulkFileRow) :
    (checkStatusStats rows).total = rows.length ∧
    (checkStatusStats rows).completed =
      rows.countP (fun r => decide (r.status = FileStatus.completed)) ∧
    (checkStatusStats rows).errors =
      rows.countP (fun r => decide (r.status = FileStatus.error)) ∧
    (checkStatusStats rows).pending =
      rows.countP (fun r => decide (r.status = FileStatus.queued)) +
        rows.countP (fun r => decide (r.status = FileStatus.processing)) ∧
    (checkStatusStats rows).totalChunks = (rows.map (fun r => r.chunksCount)).sum ∧
    (checkStatusStats rows).completed + (checkStatusStats rows).errors +
        (checkStatusStats rows).pending = (checkStatusStats rows).total := by
  have hpend := countP_pending_split rows
  have hpartition := countP_status_partition rows
  have h := checkStatusStats_foldl rows ⟨0, 0, 0, 0, 0⟩
  refine ⟨?_, ?_, ?_, ?_, ?_, ?_⟩
  · rw [checkStatusStats, h]; simp
  · rw [checkStatusStats, h]; simp
  · rw [checkStatusStats, h]; simp
  · rw [checkStatusStats, h]; simpa using hpend
  · rw [checkStatusStats, h]; simp
  · rw [checkStatusStats, h]
    simpa using hpartition

/-! ## Error recovery (`clear-errors.js`)

The reset is a single SQL statement:
`UPDATE bulk_files SET status = "queued", error = NULL WHERE status = "error"`,
and `result.changes` is the number of rows the WHERE clause matched.
Note the statement sets only `status` and `error`. -/

def resetErrorsToQueued (rows : List BulkFileRow) : List BulkFileRow × Nat :=
  (rows.map (fun r =>
      if r.status = FileStatus.error then
        { r with status := FileStatus.queued, errorMsg := none }
      else r),
   rows.countP (fun r => decide (r.status = FileStatus.error)))

/-- **C4** — `resetErrorsToQueued` transitions exactly the entries with
status `error` to `queued` with the error field cleared, leaves every
other (in particular every completed) entry unchanged, returns the
number of affected entries, and is a no-op returning 0 when no entry is
in the error state. -/
theorem resetErrorsToQueued_spec (rows : List BulkFileRow) :
    (resetErrorsToQueued rows).2 =
      (rows.filter (fun r => decide (r.status = FileStatus.error))).length ∧
    (resetErrorsToQueued rows).1.length = rows.length ∧
    (∀ i r, rows.get? i = some r → r.status = FileStatus.error →
      (resetErrorsToQueued rows).1.get? i =
        some { r with status := FileStatus.queued, errorMsg := none }) ∧
    (∀ i r, rows.get? i = some r → r.status ≠ FileStatus.error →
      (resetErrorsToQueued rows).1.get? i = some r) ∧
    ((resetErrorsToQueued rows).2 = 0 → resetErrorsToQueued rows = (rows, 0)) := by
  refine ⟨?_, ?_, ?_, ?_, ?_⟩
  · simp [resetErrorsToQueued, List.countP_eq_length_filter]
  · simp [resetErrorsToQueued]
  · intro i r hget hr
    simp only [resetErrorsToQueued, List.get?_map, hget, Option.map_some]
    simp [hr]
  · intro i r hget hr
    simp only [resetErrorsToQueued, List.get?_map, hget, Option.map_some]
    simp [hr]
  · intro hzero
    have hz : rows.countP (fun r => decide (r.status = FileStatus.error)) = 0 := hzero
    have hnone : ∀ r ∈ rows, ¬ (r.status = FileStatus.error) := by
      intro r hr
      have := List.countP_eq_zero.mp hz r hr
      simpa using this
    simp only [resetErrorsToQueued, Prod.mk.injEq]
    refine ⟨?_, hz⟩
    have hmapped : rows.map (fun r =>
        if r.status = FileStatus.error then
          { r with status := FileStatus.queued, errorMsg := none }
        else r) = rows.map id :=
      List.map_congr_left (fun r hr => by simp [hnone r hr])
    simpa using hmapped

/-- Witness for **C4** at a concrete input: a manifest with one `error`
entry and one `completed` entry — the error entry is requeued with its
error cleared. -/
theorem resetErrorsToQueued_spec_witness :
    (resetErrorsToQueued [⟨"x.pdf", FileStatus.error, 0, some "oops", 3⟩,
        ⟨"y.pdf", FileStatus.completed, 12, none, 4⟩]).1.get? 0 =
      some ⟨"x.pdf", FileStatus.queued, 0, none, 3⟩ :=
  (resetErrorsToQueued_spec [⟨"x.pdf", FileStatus.error, 0, some "oops", 3⟩,
      ⟨"y.pdf", FileStatus.completed, 12, none, 4⟩]).2.2.1 0
    ⟨"x.pdf", FileStatus.error, 0, some "oops", 3⟩ rfl rfl

/-- Concrete failing input for **C5**: one entry in status `error` with
`updatedAt = 5`.  The reset transitions it to `queued` (a status
transition) but its `updatedAt` is still 5 after the reset, because the
UPDATE statement sets only `status` and `error`. -/
theorem resetErrorsToQueued_preserves_updatedAt :
    resetErrorsToQueued
        [{ path := "a.pdf", status := FileStatus.error, chunksCount := 0,
           errorMsg := some "boom", updatedAt := 5 }] =
      ([{ path := "a.pdf", status := FileStatus.queued, chunksCount := 0,
          errorMsg := none, updatedAt := 5 }], 1) := by
  rfl

/-! ## Dynamic Top-K selection (`RAGService.getOptimalTopK`)

```js
if (userTopK && userTopK > 0 && userTopK <= 20) return userTopK;
const queryLength = query.length;
const hasTechnicalTerms = /[A-Z]{2,}|[0-9]+/.test(query);
const hasComplexWords = /\b(how|why|explain|analyze|compare|difference|what\s+is|describe|elaborate|detailed)\b/i.test(query);
const hasMultipleQuestions = (query.match(/\?/g) || []).length > 1;
if (queryLength < 20 && !hasComplexWords && !hasTechnicalTerms) return 3;
if (queryLength < 50 || hasTechnicalTerms) return 6;
if (hasComplexWords || hasMultipleQuestions) return 8;
return 10;
```
JS numbers are modelled as `ℚ` (`userTopK && ...` is JS truthiness of a
number, i.e. the number is not 0 and not NaN; `ℚ` has no NaN). -/

def isUpperAscii (c : Char) : Bool := decide (Char.ofNat 65 ≤ c ∧ c ≤ Char.ofNat 90)

def isDigitAscii (c : Char) : Bool := decide (Char.ofNat 48 ≤ c ∧ c ≤ Char.ofNat 57)

/-- Match of `[A-Z]{2,}`: two consecutive ASCII uppercase letters. -/
def hasUpperRun : List Char → Bool
  | c1 :: c2 :: rest => (isUpperAscii c1 && isUpperAscii c2) || hasUpperRun (c2 :: rest)
  | _ => false

def hasTechnicalTerms (query : String) : Bool :=
  hasUpperRun query.data || query.data.any isDigitAscii

/-- JS `\w`: `[A-Za-z0-9_]`. -/
def isWordChar (c : Char) : Bool :=
  isUpperAscii c || decide (Char.ofNat 97 ≤ c ∧ c ≤ Char.ofNat 122) || isDigitAscii c ||
    decide (c = Char.ofNat 95)

/-- ASCII lowering used for the `/i` flag of the complex-word regex. -/
def lowerAscii (c : Char) : Char :=
  if isUpperAscii c then Char.ofNat (c.toNat + 32) else c

def complexWordAlternatives : List (List Char) :=
  [String.data "how", String.data "why", String.data "explain", String.data "analyze",
   String.data "compare", String.data "difference", String.data "describe",
   String.data "elaborate", String.data "detailed"]

/-- A word-boundary holds after the match if the remainder starts with a
non-word character (or is empty). -/
def boundaryAfter : List Char → Bool
  | [] => true
  | c :: _ => !isWordChar c

def wordMatchAt (w : List Char) (l : List Char) : Bool :=
  w.isPrefixOf l && boundaryAfter (l.drop w.length)

/-- Match of the `what\s+is` alternative at the head of `l`. -/
def whatIsMatchAt (l : List Char) : Bool :=
  (String.data "what").isPrefixOf l &&
    (let r := l.drop 4
     let sp := r.takeWhile Char.isWhitespace
     !sp.isEmpty && wordMatchAt (String.data "is") (r.drop sp.length))

def complexMatchHere (l : List Char) : Bool :=
  complexWordAlternatives.any (fun w => wordMatchAt w l) || whatIsMatchAt l

/-- Scan for a boundary-preceded match of the alternation, carrying the
previous character to decide the left word-boundary. -/
def complexScan (prev : Option Char) : List Char → Bool
  | [] => false
  | c :: rest =>
      ((match prev with
        | none => true
        | some p => !isWordChar p) && complexMatchHere (c :: rest)) ||
        complexScan (some c) rest

def hasComplexWords (query : String) : Bool :=
  complexScan none (query.data.map lowerAscii)

def hasMultipleQuestions (query : String) : Bool :=
  decide (1 < query.data.count (Char.ofNat 63))

def classifyTopK (query : String) : ℚ :=
  if query.length < 20 ∧ hasComplexWords query = false ∧ hasTechnicalTerms query = false then 3
  else if query.length < 50 ∨ hasTechnicalTerms query = true then 6
  else if hasComplexWords query = true ∨ hasMultipleQuestions query = true then 8
  else 10

def getOptimalTopK (query : String) (userTopK : Option ℚ) : ℚ :=
  match userTopK with
  | some k => if k ≠ 0 ∧ 0 < k ∧ k ≤ 20 then k else classifyTopK query
  | none => classifyTopK query

/-- **C9** — `getOptimalTopK` returns the user override exactly when it is
a number strictly greater than 0 and at most 20; otherwise it returns one
of 3, 6, 8 or 10, determined solely by the query text (the same value as
with no override at all); in particular the returned retrieval depth
never exceeds 20. -/
theorem getOptimalTopK_spec (query : String) (userTopK : Option ℚ) :
    (∀ k, userTopK = some k → 0 < k → k ≤ 20 → getOptimalTopK query userTopK = k) ∧
    ((∀ k, userTopK = some k → ¬(0 < k ∧ k ≤ 20)) →
      getOptimalTopK query userTopK = getOptimalTopK query none ∧
        getOptimalTopK query userTopK ∈ ([3, 6, 8, 10] : List ℚ)) ∧
    getOptimalTopK query userTopK ≤ 20 := by
  have hclass : classifyTopK query ∈ ([3, 6, 8, 10] : List ℚ) := by
    unfold classifyTopK
    split
    · simp
    · split
      · simp
      · split <;> simp
  have hclassle : classifyTopK query ≤ 20 := by
    unfold classifyTopK
    split
    · norm_num
    · split
      · norm_num
      · split <;> norm_num
  refine ⟨?_, ?_, ?_⟩
  · intro k hk hpos hle
    subst hk
    simp only [getOptimalTopK]
    rw [if_pos ⟨ne_of_gt hpos, hpos, hle⟩]
  · intro hinvalid
    cases userTopK with
    | none => exact ⟨rfl, hclass⟩
    | some k =>
        have hnot : ¬(k ≠ 0 ∧ 0 < k ∧ k ≤ 20) := by
          intro ⟨_, hpos, hle⟩
          exact hinvalid k rfl ⟨hpos, hle⟩
        simp only [getOptimalTopK]
        rw [if_neg hnot]
        exact ⟨rfl, hclass⟩
  · cases userTopK with
    | none => exact hclassle
    | some k =>
        simp only [getOptimalTopK]
        split
        · next h => exact h.2.2
        · exact hclassle

/-- Witness for **C9** at a concrete input: the user override 5 is valid
and returned unchanged for the query `"What is Python?"`. -/
theorem getOptimalTopK_spec_witness :
    getOptimalTopK "What is Python?" (some 5) = 5 :=
  (getOptimalTopK_spec "What is Python?" (some 5)).1 5 rfl (by norm_num) (by norm_num)

/-! ## Source-name cleaning (`RAGService.cleanSourceName`)

```js
if (!sourcePath) return 'Unknown';
if (sourcePath.includes('split 11\\')) {
  return sourcePath.split('split 11\\')[1];
}
return sourcePath.split(/[\\/]/).pop() || sourcePath;
```
JS `String.prototype.split` with a non-empty string separator cuts at
every (leftmost, non-overlapping) occurrence; `[1]` is therefore the
piece between the first and the second occurrence.  Strings are
modelled as `List Char`; the split is written with a fuel argument
(fuel = length of the remaining input suffices) so that it reduces by
kernel evaluation. -/

def jsSplitFuel (sep : List Char) : Nat → List Char → List (List Char)
  | _, [] => [[]]
  | 0, l => [l]
  | fuel + 1, c :: rest =>
      if sep.isPrefixOf (c :: rest) && !sep.isEmpty then
        [] :: jsSplitFuel sep fuel (List.drop (sep.length - 1) rest)
      else
        match jsSplitFuel sep fuel rest with
        | [] => [[c]]
        | t :: ts => (c :: t) :: ts

def jsSplitOnStr (sep l : List Char) : List (List Char) :=
  jsSplitFuel sep l.length l

/-- JS `split` with the regex `[\\/]`: cut at every matching character. -/
def jsSplitOnPred (p : Char → Bool) : List Char → List (List Char)
  | [] => [[]]
  | c :: rest =>
      if p c then [] :: jsSplitOnPred p rest
      else
        match jsSplitOnPred p rest with
        | [] => [[c]]
        | t :: ts => (c :: t) :: ts

def isPathSep (c : Char) : Bool := decide (c = Char.ofNat 92) || decide (c = Char.ofNat 47)

def sepSplit11 : List Char := String.data "split 11\\"

/-- JS `String.prototype.includes`: some occurrence of `sep` starts at
some index (`firstOccIdx` below finds the least one). -/
def firstOccIdx (sep : List Char) : List Char → Option Nat
  | [] => if sep.isEmpty then some 0 else none
  | c :: rest =>
      if sep.isPrefixOf (c :: rest) then some 0
      else (firstOccIdx sep rest).map (fun i => i + 1)

def containsSeq (sep l : List Char) : Bool := (firstOccIdx sep l).isSome

def cleanSourceNameL (sourcePath : Option (List Char)) : List Char :=
  match sourcePath with
  | none => String.data "Unknown"
  | some s =>
      if s.isEmpty then String.data "Unknown"
      else if containsSeq sepSplit11 s then (jsSplitOnStr sepSplit11 s).getD 1 []
      else
        let lastSeg := (jsSplitOnPred isPathSep s).getLastD []
        if lastSeg.isEmpty then s else lastSeg

def cleanSourceName (sourcePath : Option String) : String :=
  String.mk (cleanSourceNameL (Option.map String.data sourcePath))

/-! Spec-side notions used to state the claim independently of the
split-based implementation: the suffix after the first occurrence of the
separator, and the segment between the first occurrence and the next. -/

def afterFirstOcc (sep l : List Char) : List Char :=
  match firstOccIdx sep l with
  | some i => l.drop (i + sep.length)
  | none => l

def segmentAfterFirstOcc (sep l : List Char) : List Char :=
  match firstOccIdx sep (afterFirstOcc sep l) with
  | some j => (afterFirstOcc sep l).take j
  | none => afterFirstOcc sep l

/-- The final path segment: the suffix after the last slash or backslash. -/
def lastPathSegment (s : List Char) : List Char :=
  (s.reverse.takeWhile (fun c => !isPathSep c)).reverse

/-- The behaviour C10 asserts, written from its words (with the amended
middle case: the piece between the first and second occurrence of
`"split 11\\"` rather than the whole suffix after the first). -/
def specCleanSourceName (sourcePath : Option (List Char)) : List Char :=
  match sourcePath with
  | none => String.data "Unknown"
  | some s =>
      if s.isEmpty then String.data "Unknown"
      else if containsSeq sepSplit11 s then segmentAfterFirstOcc sepSplit11 s
      else if (lastPathSegment s).isEmpty then s else lastPathSegment s

theorem jsSplitFuel_fuelIrrel (sep : List Char) :
    ∀ n m l, List.length l ≤ n → List.length l ≤ m →
      jsSplitFuel sep n l = jsSplitFuel sep m l := by
  intro n
  induction n with
  | zero =>
      intro m l hn _
      have : l = [] := List.eq_nil_of_length_eq_zero (Nat.le_zero.mp hn)
      subst this
      cases m <;> rfl
  | succ n ih =>
      intro m l hn hm
      cases l with
      | nil => cases m <;> rfl
      | cons c rest =>
          cases m with
          | zero => simp at hm
          | succ m =>
              simp only [jsSplitFuel]
              by_cases hc : (sep.isPrefixOf (c :: rest) && !sep.isEmpty) = true
              · rw [if_pos hc, if_pos hc]
                have hlen : (List.drop (sep.length - 1) rest).length ≤ rest.length := by
                  rw [List.length_drop]; omega
                have h1 : (List.drop (sep.length - 1) rest).length ≤ n :=
                  Nat.le_trans hlen (Nat.le_of_succ_le_succ hn)
                have h2 : (List.drop (sep.length - 1) rest).length ≤ m :=
                  Nat.le_trans hlen (Nat.le_of_succ_le_succ hm)
                rw [ih _ _ h1 h2]
              · rw [if_neg hc, if_neg hc]
                rw [ih _ rest (Nat.le_of_succ_le_succ hn) (Nat.le_of_succ_le_succ hm)]

theorem jsSplitOnStr_cons (sep : List Char) (c : Char) (rest : List Char) :
    jsSplitOnStr sep (c :: rest) =
      if sep.isPrefixOf (c :: rest) && !sep.isEmpty then
        [] :: jsSplitOnStr sep (List.drop (sep.length - 1) rest)
      else
        match jsSplitOnStr sep rest with
        | [] => [[c]]
        | t :: ts => (c :: t) :: ts := by
  show jsSplitFuel sep (rest.length + 1) (c :: rest) = _
  simp only [jsSplitFuel]
  by_cases hc : (sep.isPrefixOf (c :: rest) && !sep.isEmpty) = true
  · rw [if_pos hc, if_pos hc]
    rw [jsSplitFuel_fuelIrrel sep rest.length (List.drop (sep.length - 1) rest).length _
      (by rw [List.length_drop]; omega) (Nat.le_refl _)]
    rfl
  · rw [if_neg hc, if_neg hc]
    rfl

theorem jsSplitFuel_ne_nil (sep : List Char) (n : Nat) (l : List Char) :
    jsSplitFuel sep n l ≠ [] := by
  cases n with
  | zero => cases l <;> simp [jsSplitFuel]
  | succ n =>
      cases l with
      | nil => simp [jsSplitFuel]
      | cons c rest =>
          simp only [jsSplitFuel]
          split
          · simp
          · split <;> simp

theorem jsSplitOnStr_ne_nil (sep l : List Char) : jsSplitOnStr sep l ≠ [] :=
  jsSplitFuel_ne_nil sep l.length l

theorem jsSplitOnStr_of_firstOcc_none (sep l : List Char) (hsep : sep ≠ [])
    (h : firstOccIdx sep l = none) : jsSplitOnStr sep l = [l] := by
  induction l with
  | nil => rfl
  | cons c rest ih =>
      rw [jsSplitOnStr_cons]
      have hnp : sep.isPrefixOf (c :: rest) = false := by
        by_contra hcon
        have : sep.isPrefixOf (c :: rest) = true := by
          cases hb : sep.isPrefixOf (c :: rest)
          · exact absurd hb hcon
          · rfl
        simp [firstOccIdx, this] at h
      have hrest : firstOccIdx sep rest = none := by
        simp [firstOccIdx, hnp] at h
        exact h
      rw [ih hrest]
      simp [hnp]

theorem jsSplitOnStr_of_firstOcc_some (sep : List Char) (hsep : sep ≠ []) :
    ∀ l i, firstOccIdx sep l = some i →
      jsSplitOnStr sep l = l.take i :: jsSplitOnStr sep (l.drop (i + sep.length)) := by
  intro l
  induction l with
  | nil =>
      intro i h
      simp [firstOccIdx, hsep] at h
  | cons c rest ih =>
      intro i h
      rw [jsSplitOnStr_cons]
      by_cases hp : sep.isPrefixOf (c :: rest) = true
      · have hi : i = 0 := by simp [firstOccIdx, hp] at h; omega
        subst hi
        have hcond : (sep.isPrefixOf (c :: rest) && !sep.isEmpty) = true := by
          simp [hp, hsep]
        rw [if_pos hcond]
        have hone : 1 ≤ sep.length := by
          cases sep with
          | nil => exact absurd rfl hsep
          | cons a b => simp
        have hdrop : (c :: rest).drop (0 + sep.length) = List.drop (sep.length - 1) rest := by
          cases sep with
          | nil => exact absurd rfl hsep
          | cons a b => simp
        rw [hdrop]
        rfl
      · have hnp : sep.isPrefixOf (c :: rest) = false := by
          cases hb : sep.isPrefixOf (c :: rest)
          · rfl
          · exact absurd hb hp
        have hcond : (sep.isPrefixOf (c :: rest) && !sep.isEmpty) = false := by
          simp [hnp]
        rw [if_neg (by simp [hcond])]
        obtain ⟨j, hj, hij⟩ : ∃ j, firstOccIdx sep rest = some j ∧ i = j + 1 := by
          simp [firstOccIdx, hnp] at h
          obtain ⟨j, hj1, hj2⟩ := h
          exact ⟨j, hj1, hj2.symm⟩
        subst hij
        rw [ih j hj]
        simp [Nat.add_right_comm]

theorem jsSplitOnStr_length_gt_one_iff (sep l : List Char) (hsep : sep ≠ []) :
    1 < (jsSplitOnStr sep l).length ↔ containsSeq sep l = true := by
  cases hocc : firstOccIdx sep l with
  | none =>
      rw [jsSplitOnStr_of_firstOcc_none sep l hsep hocc]
      simp [containsSeq, hocc]
  | some i =>
      rw [jsSplitOnStr_of_firstOcc_some sep hsep l i hocc]
      constructor
      · intro _; simp [containsSeq, hocc]
      · intro _
        have := jsSplitOnStr_ne_nil sep (l.drop (i + sep.length))
        cases hr : jsSplitOnStr sep (l.drop (i + sep.length)) with
        | nil => exact absurd hr this
        | cons t ts => simp [hr]

theorem jsSplitOnStr_getD_one (sep l : List Char) (hsep : sep ≠ []) (i : Nat)
    (hocc : firstOccIdx sep l = some i) :
    (jsSplitOnStr sep l).getD 1 [] = segmentAfterFirstOcc sep l := by
  rw [jsSplitOnStr_of_firstOcc_some sep hsep l i hocc]
  have hafter : afterFirstOcc sep l = l.drop (i + sep.length) := by
    simp [afterFirstOcc, hocc]
  cases hocc2 : firstOccIdx sep (l.drop (i + sep.length)) with
  | none =>
      rw [jsSplitOnStr_of_firstOcc_none sep _ hsep hocc2]
      simp [segmentAfterFirstOcc, hafter, hocc2, List.getD]
  | some j =>
      rw [jsSplitOnStr_of_firstOcc_some sep hsep _ j hocc2]
      simp [segmentAfterFirstOcc, hafter, hocc2, List.getD]

/-- Helper describing how appending one character extends the last piece
of a character-predicate split. -/
def appendToLast (c : Char) : List (List Char) → List (List Char)
  | [] => [[c]]
  | [t] => [t ++ [c]]
  | t :: ts => t :: appendToLast c ts

theorem jsSplitOnPred_ne_nil (p : Char → Bool) (l : List Char) :
    jsSplitOnPred p l ≠ [] := by
  cases l with
  | nil => simp [jsSplitOnPred]
  | cons c rest =>
      simp only [jsSplitOnPred]
      split
      · simp
      · split <;> simp

theorem jsSplitOnPred_append_singleton (p : Char → Bool) (l : List Char) (c : Char) :
    jsSplitOnPred p (l ++ [c]) =
      if p c then jsSplitOnPred p l ++ [[]] else appendToLast c (jsSplitOnPred p l) := by
  induction l with
  | nil =>
      show jsSplitOnPred p [c] = _
      simp only [jsSplitOnPred]
      by_cases hc : p c = true <;> simp [hc, appendToLast]
  | cons a rest ih =>
      have hl : jsSplitOnPred p ((a :: rest) ++ [c]) =
          if p a then [] :: jsSplitOnPred p (rest ++ [c])
          else match jsSplitOnPred p (rest ++ [c]) with
            | [] => [[a]]
            | t :: ts => (a :: t) :: ts := rfl
      have hr : jsSplitOnPred p (a :: rest) =
          if p a then [] :: jsSplitOnPred p rest
          else match jsSplitOnPred p rest with
            | [] => [[a]]
            | t :: ts => (a :: t) :: ts := rfl
      rw [hl, hr, ih]
      obtain ⟨t, ts, hts⟩ : ∃ t ts, jsSplitOnPred p rest = t :: ts := by
        cases h : jsSplitOnPred p rest with
        | nil => exact absurd h (jsSplitOnPred_ne_nil p rest)
        | cons t ts => exact ⟨t, ts, rfl⟩
      rw [hts]
      by_cases ha : p a = true <;> by_cases hc : p c = true <;> cases ts <;>
        simp [ha, hc, appendToLast]

theorem getLastD_append_nil_piece (L : List (List Char)) :
    (L ++ [[]]).getLastD [] = ([] : List Char) := by
  rw [List.getLastD_eq_getLast?, List.getLast?_concat]
  rfl

theorem appendToLast_ne_nil (c : Char) (L : List (List Char)) : appendToLast c L ≠ [] := by
  cases L with
  | nil => simp [appendToLast]
  | cons t ts => cases ts <;> simp [appendToLast]

theorem appendToLast_getLast? (c : Char) (L : List (List Char)) :
    (appendToLast c L).getLast? = some (L.getLastD [] ++ [c]) := by
  induction L with
  | nil => rfl
  | cons t ts ih =>
      cases ts with
      | nil => rfl
      | cons u us =>
          show (t :: appendToLast c (u :: us)).getLast? = _
          cases hm : appendToLast c (u :: us) with
          | nil => exact absurd hm (appendToLast_ne_nil c (u :: us))
          | cons v vs =>
              rw [List.getLast?_cons_cons, ← hm, ih]
              rw [List.getLastD_eq_getLast?, List.getLastD_eq_getLast?, List.getLast?_cons_cons]

theorem getLastD_appendToLast (c : Char) (L : List (List Char)) :
    (appendToLast c L).getLastD [] = L.getLastD [] ++ [c] := by
  rw [List.getLastD_eq_getLast?, appendToLast_getLast?]
  rfl

theorem jsSplitOnPred_getLastD (p : Char → Bool) (l : List Char) :
    (jsSplitOnPred p l).getLastD [] = (l.reverse.takeWhile (fun c => !p c)).reverse := by
  induction l using List.reverseRecOn with
  | nil => rfl
  | append_singleton l c ih =>
      rw [jsSplitOnPred_append_singleton]
      by_cases hc : p c = true
      · rw [if_pos hc, getLastD_append_nil_piece]
        simp [List.takeWhile_cons, hc]
      · rw [if_neg hc, getLastD_appendToLast, ih]
        simp [List.takeWhile_cons, hc]

theorem sepSplit11_ne_nil : sepSplit11 ≠ [] := by decide

/-- **C10 (amended)** — `cleanSourceName` returns `"Unknown"` for missing
or empty input; for a path containing `"split 11\\"` it returns the
segment strictly between the first occurrence of that substring and the
following occurrence (equivalently, everything after the first occurrence
when the substring occurs only once); for every other non-empty path it
returns the final path segment after the last forward or back slash,
falling back to the input itself when that segment is empty. -/
theorem cleanSourceName_amended (sourcePath : Option (List Char)) :
    cleanSourceNameL sourcePath = specCleanSourceName sourcePath := by
  cases sourcePath with
  | none => rfl
  | some s =>
      simp only [cleanSourceNameL, specCleanSourceName]
      by_cases hempty : s.isEmpty = true
      · rw [if_pos hempty, if_pos hempty]
      · rw [if_neg hempty, if_neg hempty]
        by_cases hc : containsSeq sepSplit11 s = true
        · rw [if_pos hc, if_pos hc]
          obtain ⟨i, hi⟩ : ∃ i, firstOccIdx sepSplit11 s = some i := by
            cases hocc : firstOccIdx sepSplit11 s with
            | none => simp [containsSeq, hocc] at hc
            | some i => exact ⟨i, rfl⟩
          exact jsSplitOnStr_getD_one sepSplit11 s sepSplit11_ne_nil i hi
        · rw [if_neg hc, if_neg hc]
          rw [jsSplitOnPred_getLastD isPathSep s]
          rfl

/-- Counterexample for **C10** as stated: on a path in which
`"split 11\\"` occurs twice, JS `split(...)[1]` is the piece between the
two occurrences, not everything after the first occurrence. -/
theorem cleanSourceName_counterexample :
    containsSeq sepSplit11 (String.data "a\\split 11\\b\\split 11\\c") = true ∧
    afterFirstOcc sepSplit11 (String.data "a\\split 11\\b\\split 11\\c") =
      String.data "b\\split 11\\c" ∧
    cleanSourceName (some "a\\split 11\\b\\split 11\\c") = "b\\" ∧
    cleanSourceName (some "a\\split 11\\b\\split 11\\c") ≠ "b\\split 11\\c" := by
  refine ⟨by decide, by decide, by decide, by decide⟩

/-! ## Bulk document processing (`RAGService.processBulkDocuments`)

```js
const batchSize = Number(process.env.BULK_EMBED_BATCH || '128');
let totalChunks = 0;
for (let i = 0; i < documents.length; i += batchSize) {
  const batch = documents.slice(i, i + batchSize);
  const chunks = await this.textSplitter.splitDocuments(docs);
  await this.vectorStore.addDocuments(chunks);
  totalChunks += chunks.length;
}
return { success: true, chunksAdded: totalChunks };
```
The text splitter is an external collaborator: it is modelled as a
function from one document to its list of chunks
(`splitDocuments` splits each document and concatenates in order).
`Number(...)` is modelled for the nonnegative-decimal inputs the service
uses; nonnumeric input maps to 0 (standing for NaN). -/

def jsNumberNat (s : String) : Nat :=
  if s.data ≠ [] ∧ s.data.all isDigitAscii then
    s.data.foldl (fun acc c => acc * 10 + (c.toNat - 48)) 0
  else 0

def bulkEmbedBatchSize (env : Option String) : Nat :=
  jsNumberNat (match env with
    | none => "128"
    | some v => if v = "" then "128" else v)

/-- Consecutive slices `slice(i, i + bs)` of the loop, with a fuel
argument (fuel = input length suffices) so the definition reduces by
kernel evaluation. -/
def sliceBatches {α : Type} (bs : Nat) : Nat → List α → List (List α)
  | _, [] => []
  | 0, l => [l]
  | fuel + 1, l => l.take bs :: sliceBatches bs fuel (l.drop bs)

def bulkBatches {α : Type} (bs : Nat) (docs : List α) : List (List α) :=
  sliceBatches bs docs.length docs

def processBulkDocuments {α β : Type} (split : α → List β) (env : Option String)
    (docs : List α) : Nat :=
  (bulkBatches (bulkEmbedBatchSize env) docs).foldl
    (fun totalChunks batch => totalChunks + ((batch.map split).flatten).length) 0

theorem sliceBatches_flatten {α : Type} (bs : Nat) (hbs : 0 < bs) :
    ∀ fuel (l : List α), l.length ≤ fuel → (sliceBatches bs fuel l).flatten = l := by
  intro fuel
  induction fuel with
  | zero =>
      intro l hl
      have : l = [] := List.eq_nil_of_length_eq_zero (Nat.le_zero.mp hl)
      subst this
      rfl
  | succ fuel ih =>
      intro l hl
      cases l with
      | nil => rfl
      | cons a rest =>
          simp only [sliceBatches, List.flatten_cons]
          rw [ih ((a :: rest).drop bs) (by rw [List.length_drop]; simp only [List.length_cons] at hl ⊢; omega)]
          exact List.take_append_drop bs (a :: rest)

theorem sliceBatches_sizes {α : Type} (bs : Nat) (hbs : 0 < bs) :
    ∀ fuel (l : List α), l.length ≤ fuel →
      ∀ b ∈ sliceBatches bs fuel l, b ≠ [] ∧ b.length ≤ bs := by
  intro fuel
  induction fuel with
  | zero =>
      intro l hl b hb
      have : l = [] := List.eq_nil_of_length_eq_zero (Nat.le_zero.mp hl)
      subst this
      simp [sliceBatches] at hb
  | succ fuel ih =>
      intro l hl b hb
      cases l with
      | nil => simp [sliceBatches] at hb
      | cons a rest =>
          simp only [sliceBatches, List.mem_cons] at hb
          cases hb with
          | inl hb =>
              subst hb
              constructor
              · cases bs with
                | zero => omega
                | succ n => simp [List.take_cons]
              · simpa using List.length_take_le bs (a :: rest)
          | inr hb =>
              exact ih ((a :: rest).drop bs) (by rw [List.length_drop]; simp only [List.length_cons] at hl ⊢; omega) b hb

theorem flatten_map_length {α β : Type} (split : α → List β) (b : List α) :
    ((b.map split).flatten).length = (b.map (fun d => (split d).length)).sum := by
  induction b with
  | nil => rfl
  | cons a rest ih => simp [List.flatten_cons, ih]

theorem sliceBatches_chunkSum {α β : Type} (split : α → List β) (bs : Nat) (hbs : 0 < bs) :
    ∀ fuel (l : List α) (acc : Nat), l.length ≤ fuel →
      (sliceBatches bs fuel l).foldl
          (fun totalChunks batch => totalChunks + ((batch.map split).flatten).length) acc =
        acc + (l.map (fun d => (split d).length)).sum := by
  intro fuel
  induction fuel with
  | zero =>
      intro l acc hl
      have : l = [] := List.eq_nil_of_length_eq_zero (Nat.le_zero.mp hl)
      subst this
      rfl
  | succ fuel ih =>
      intro l acc hl
      cases l with
      | nil => rfl
      | cons a rest =>
          simp only [sliceBatches, List.foldl_cons]
          rw [ih ((a :: rest).drop bs) _ (by rw [List.length_drop]; simp only [List.length_cons] at hl ⊢; omega)]
          rw [flatten_map_length]
          have hsplit : ((a :: rest).map (fun d => (split d).length)).sum =
              (((a :: rest).take bs).map (fun d => (split d).length)).sum +
                (((a :: rest).drop bs).map (fun d => (split d).length)).sum := by
            conv_lhs => rw [← List.take_append_drop bs (a :: rest)]
            rw [List.map_append, List.sum_append]
          rw [hsplit]
          omega

/-- **C8** — bulk processing partitions the document list into
consecutive batches of the configured embedding batch size (each batch
non-empty and at most the batch size, order preserved — flattening the
batches gives back the input), the batch size defaults to 128 when
`BULK_EMBED_BATCH` is unset, and the returned `chunksAdded` is the sum
over all documents of the number of chunks the splitter produced. -/
theorem processBulkDocuments_spec {α β : Type} (split : α → List β) (env : Option String)
    (docs : List α) (hbs : 0 < bulkEmbedBatchSize env) :
    (bulkBatches (bulkEmbedBatchSize env) docs).flatten = docs ∧
    (∀ b ∈ bulkBatches (bulkEmbedBatchSize env) docs,
      b ≠ [] ∧ b.length ≤ bulkEmbedBatchSize env) ∧
    processBulkDocuments split env docs = (docs.map (fun d => (split d).length)).sum ∧
    bulkEmbedBatchSize none = 128 := by
  refine ⟨?_, ?_, ?_, rfl⟩
  · exact sliceBatches_flatten (bulkEmbedBatchSize env) hbs docs.length docs (Nat.le_refl _)
  · exact sliceBatches_sizes (bulkEmbedBatchSize env) hbs docs.length docs (Nat.le_refl _)
  · have h := sliceBatches_chunkSum split (bulkEmbedBatchSize env) hbs docs.length docs 0
      (Nat.le_refl _)
    simpa [processBulkDocuments, bulkBatches] using h

/-- Witness for **C8** at a concrete input: with the environment variable
unset the batch size is 128, and two documents of 2 chunks each give
`chunksAdded = 4`. -/
theorem processBulkDocuments_spec_witness :
    0 < bulkEmbedBatchSize none ∧
    processBulkDocuments (fun n : Nat => [n, n + 1]) none [5, 7] = 4 := by
  refine ⟨by decide, ?_⟩
  have h := (processBulkDocuments_spec (fun n : Nat => [n, n + 1]) none [5, 7] (by decide)).2.2.1
  rw [h]
  rfl

/-! ## Collection statistics (`RAGService.getCollectionStats`)

```js
const samplePoints = await client.scroll(collection, {
  limit: Math.min(1000, totalVectors), ... });
const uniqueSources = new Set();
for (const point of samplePoints.points)
  if (point.payload?.metadata?.source) uniqueSources.add(...source);
const estimatedUniqueSources = totalVectors > 1000
  ? Math.round(uniqueSources.size * (totalVectors / samplePoints.points.length))
  : uniqueSources.size;
```
A point is modelled by its optional payload source; `totalVectors` is the
number of points; `scroll` with a limit returns the first `limit` points;
JS `Math.round x` is `Int.floor (x + 1 / 2)`. -/

def distinctSources (points : List (Option String)) : Nat :=
  ((points.filterMap id).dedup).length

def jsMathRound (q : ℚ) : ℤ := Int.floor (q + 1 / 2)

def getCollectionStatsUniqueSources (points : List (Option String)) : ℤ :=
  let totalVectors := points.length
  let sample := points.take (min 1000 totalVectors)
  let uniqueSources := distinctSources sample
  if 1000 < totalVectors then
    jsMathRound ((uniqueSources : ℚ) * ((totalVectors : ℚ) / (sample.length : ℚ)))
  else (uniqueSources : ℤ)

/-- **C6** — the collection stats report the unique-source count exactly
(the number of distinct sources among the points) when the collection
holds at most 1000 vectors; for larger collections they report the
distinct-source count of a sample of the first 1000 points scaled by
`totalVectors / 1000` and rounded to the nearest integer; the sampled
point count never exceeds 1000 (no exhaustive scan). -/
theorem getCollectionStats_spec (points : List (Option String)) :
    (points.length ≤ 1000 →
      getCollectionStatsUniqueSources points = (distinctSources points : ℤ)) ∧
    (1000 < points.length →
      getCollectionStatsUniqueSources points =
        jsMathRound ((distinctSources (points.take 1000) : ℚ) *
          ((points.length : ℚ) / 1000))) ∧
    (points.take (min 1000 points.length)).length ≤ 1000 := by
  refine ⟨?_, ?_, ?_⟩
  · intro hle
    have hmin : min 1000 points.length = points.length := Nat.min_eq_right hle
    simp only [getCollectionStatsUniqueSources, hmin, List.take_length,
      if_neg (Nat.not_lt.mpr hle)]
  · intro hgt
    have hmin : min 1000 points.length = 1000 := Nat.min_eq_left (Nat.le_of_lt hgt)
    have hlen : (points.take 1000).length = 1000 := by
      rw [List.length_take]
      exact Nat.min_eq_left (Nat.le_of_lt hgt)
    simp only [getCollectionStatsUniqueSources, hmin, if_pos hgt, hlen]
    norm_num
  · rw [List.length_take]
    omega

/-- Witness for **C6** at a concrete input: four points with sources
`a, b, a, none` give exactly 2 unique sources. -/
theorem getCollectionStats_spec_witness :
    getCollectionStatsUniqueSources [some "a", some "b", some "a", none] = 2 := by
  have h := (getCollectionStats_spec [some "a", some "b", some "a", none]).1 (by norm_num)
  rw [h]
  decide

/-! ## File upload processing (`RAGService.processFile`)

Per file the service extracts text (by mimetype, via external parsers),
then:
```js
if (!textContent || !textContent.trim()) {
  emitProgress?.(opId, `Warning: No extractable content found in ...`);
  continue;
}
const chunks = await this.textSplitter.splitDocuments(docs);
totalChunks += chunks.length;
allSources.push({ file: originalname });
...
if (totalChunks === 0) {
  throw new Error('No extractable text content found in any of the uploaded files');
}
```
Extraction is modelled as already performed (the spec treats parsing as
a pure collaborator), and the splitter as the number of chunks per text. -/

structure UploadFile where
  originalname : String
  text : String
deriving DecidableEq, Repr

def noContentMsg : String := "No extractable text content found in any of the uploaded files"

/-- JS `!textContent || !textContent.trim()`: the extracted text is empty
or whitespace-only. -/
def isBlankText (s : String) : Bool := s.data.all Char.isWhitespace

def fileChunks (split : String → Nat) (f : UploadFile) : Nat :=
  if isBlankText f.text then 0 else split f.text

def processFile (split : String → Nat) (files : List UploadFile) :
    Except String (Nat × List String) :=
  let r := files.foldl
    (fun acc f =>
      if isBlankText f.text then acc
      else (acc.1 + split f.text, acc.2 ++ [f.originalname]))
    (0, [])
  if r.1 = 0 then Except.error noContentMsg else Except.ok r

theorem processFile_foldl (split : String → Nat) (files : List UploadFile)
    (acc : Nat × List String) :
    files.foldl
      (fun acc f =>
        if isBlankText f.text then acc
        else (acc.1 + split f.text, acc.2 ++ [f.originalname]))
      acc =
    (acc.1 + (files.map (fileChunks split)).sum,
     acc.2 ++ (files.filter (fun f => !isBlankText f.text)).map (fun f => f.originalname)) := by
  induction files generalizing acc with
  | nil => simp
  | cons f rest ih =>
      simp only [List.foldl_cons, List.map_cons, List.sum_cons, List.filter_cons]
      by_cases hf : isBlankText f.text = true
      · rw [if_pos hf, ih]
        simp [fileChunks, hf]
      · rw [if_neg hf, ih]
        simp only [fileChunks, if_neg hf]
        have : (!isBlankText f.text) = true := by
          cases hb : isBlankText f.text
          · rfl
          · exact absurd hb hf
        simp [this]
        omega

/-- **C2 (amended)** — a file whose extracted text is empty or
whitespace-only contributes zero chunks and no source entry (it is
skipped with a warning rather than producing an error outcome of its
own), but when every file in the request contributes zero chunks the
whole call fails with the no-content error; otherwise the call succeeds
with the summed chunk count and the sources of exactly the non-blank
files. -/
theorem processFile_amended (split : String → Nat) (files : List UploadFile) :
    processFile split files =
      (if (files.map (fileChunks split)).sum = 0 then Except.error noContentMsg
       else Except.ok ((files.map (fileChunks split)).sum,
         (files.filter (fun f => !isBlankText f.text)).map (fun f => f.originalname))) ∧
    (∀ f ∈ files, isBlankText f.text = true → fileChunks split f = 0) := by
  constructor
  · rw [processFile, processFile_foldl]
    simp
  · intro f _ hf
    simp [fileChunks, hf]

/-- Witness for **C2** at a concrete input: one blank and one non-blank
file succeed, with the blank file skipped (zero chunks, no source). -/
theorem processFile_amended_witness :
    processFile (fun t => t.length) [⟨"a.txt", "   "⟩, ⟨"b.txt", "hello"⟩] =
      Except.ok (5, ["b.txt"]) ∧
    fileChunks (fun t => t.length) ⟨"a.txt", "   "⟩ = 0 := by
  constructor
  · rw [(processFile_amended (fun t => t.length)
      [⟨"a.txt", "   "⟩, ⟨"b.txt", "hello"⟩]).1]
    rfl
  · exact (processFile_amended (fun t => t.length)
      [⟨"a.txt", "   "⟩, ⟨"b.txt", "hello"⟩]).2 ⟨"a.txt", "   "⟩ (by simp) (by decide)

/-- Counterexample for **C2** as stated: a request consisting of a single
whitespace-only file is a hard failure — the call throws the no-content
error — rather than a non-error success path. -/
theorem processFile_counterexample :
    isBlankText "   " = true ∧
    processFile (fun t => t.length) [⟨"empty.txt", "   "⟩] = Except.error noContentMsg := by
  exact ⟨by decide, rfl⟩

/-! ## Ingestion worker pool

Modelled from the spec: the worker pool of `bulk-pdf-ingest.js` (the
script the recovery utilities refer to, not among the provided sources).
Spec §4.1/4.5: `markCompleted(path, chunksCount)` sets
`status = completed`, records `chunksCount`, clears `error`;
`markError(path, message)` sets `status = error`, records `message`;
every transition updates `updatedAt`; each claimed file runs
extract → chunk → embed → upsert (abstracted here as one fallible
pipeline from path to chunk count) and "any failure at any stage is
caught and converted to `markError` ...; processing continues for the
remaining files in the pool". -/

def markCompleted (now : Nat) (chunksCount : Nat) (e : BulkFileRow) : BulkFileRow :=
  { e with
    status := FileStatus.completed
    chunksCount := chunksCount
    errorMsg := none
    updatedAt := now }

def markError (now : Nat) (message : String) (e : BulkFileRow) : BulkFileRow :=
  { e with
    status := FileStatus.error
    errorMsg := some message
    updatedAt := now }

def workerProcessOne (now : Nat) (pipeline : String → Except String Nat)
    (e : BulkFileRow) : BulkFileRow :=
  match pipeline e.path with
  | Except.ok n => markCompleted now n e
  | Except.error m => markError now m e

def workerPool (now : Nat) (pipeline : String → Except String Nat)
    (claimed : List BulkFileRow) : List BulkFileRow :=
  claimed.map (workerProcessOne now pipeline)

/-- **C3** — when the pipeline of exactly one claimed file (index `K`)
fails, that failure is caught at the per-file boundary: entry `K` ends
in status `error` carrying the failure message, every other entry still
reaches `completed` with its error field clear, and the pool processes
all entries (the output has the same length — nothing is aborted). -/
theorem workerPool_isolation (now : Nat) (pipeline : String → Except String Nat)
    (entries : List BulkFileRow) (K : Nat) (hK : K < entries.length) (m : String)
    (hfail : pipeline ((entries.get ⟨K, hK⟩).path) = Except.error m)
    (hok : ∀ j (hj : j < entries.length), j ≠ K →
      ∃ n, pipeline ((entries.get ⟨j, hj⟩).path) = Except.ok n) :
    (workerPool now pipeline entries).length = entries.length ∧
    (∃ r, (workerPool now pipeline entries).get? K = some r ∧
      r.status = FileStatus.error ∧ r.errorMsg = some m ∧
      r.path = (entries.get ⟨K, hK⟩).path) ∧
    (∀ j (hj : j < entries.length), j ≠ K →
      ∃ r, (workerPool now pipeline entries).get? j = some r ∧
        r.status = FileStatus.completed ∧ r.errorMsg = none ∧
        r.path = (entries.get ⟨j, hj⟩).path) := by
  refine ⟨by simp [workerPool], ?_, ?_⟩
  · refine ⟨workerProcessOne now pipeline (entries.get ⟨K, hK⟩), ?_, ?_⟩
    · rw [workerPool, List.get?_map, List.get?_eq_get hK]
      rfl
    · simp only [List.get_eq_getElem] at hfail
      simp [workerProcessOne, hfail, markError]
  · intro j hj hne
    obtain ⟨n, hn⟩ := hok j hj hne
    refine ⟨workerProcessOne now pipeline (entries.get ⟨j, hj⟩), ?_, ?_⟩
    · rw [workerPool, List.get?_map, List.get?_eq_get hj]
      rfl
    · simp only [List.get_eq_getElem] at hn
      simp [workerProcessOne, hn, markCompleted]

/-- Witness for **C3** at a concrete input: a two-file batch in which the
first file's extraction fails leaves that file in `error` while the
batch is fully processed. -/
theorem workerPool_isolation_witness :
    ∃ r, (workerPool 9
        (fun p => if p = "bad.pdf" then Except.error "parse failure" else Except.ok 10)
        [⟨"bad.pdf", FileStatus.queued, 0, none, 0⟩,
         ⟨"good.pdf", FileStatus.queued, 0, none, 0⟩]).get? 0 = some r ∧
      r.status = FileStatus.error ∧ r.errorMsg = some "parse failure" ∧
      r.path = (([⟨"bad.pdf", FileStatus.queued, 0, none, 0⟩,
         ⟨"good.pdf", FileStatus.queued, 0, none, 0⟩] :
           List BulkFileRow).get ⟨0, by norm_num⟩).path := by
  refine (workerPool_isolation 9
      (fun p => if p = "bad.pdf" then Except.error "parse failure" else Except.ok 10)
      [⟨"bad.pdf", FileStatus.queued, 0, none, 0⟩,
       ⟨"good.pdf", FileStatus.queued, 0, none, 0⟩] 0 (by norm_num) "parse failure"
      (by rfl) ?_).2.1
  intro j hj hne
  cases j with
  | zero => exact absurd rfl hne
  | succ j0 =>
      cases j0 with
      | zero => exact ⟨10, by rfl⟩
      | succ j1 =>
          exfalso
          simp only [List.length_cons, List.length_nil] at hj
          omega

/-! ## Chunking, deterministic vector ids and upsert

Modelled from the spec: the chunk/embed/upsert sub-pipeline of
`bulk-pdf-ingest.js` (not among the provided sources).  Spec §4.3:
"sliding-window split with configurable chunk size and overlap
(character-based) ... deterministic — identical input and parameters
always yield identical chunk boundaries, because downstream vector
identity depends on `(sourcePath, chunkIndex)`".  The repository's
upsert test (`testQdrantUpsert`) shows the id construction:
`crypto.createHash('sha1').update(`...`)` of the string
`sourcePath + "|" + chunkIndex` — a fixed function of the pair, which
the model represents by the pair itself.  The vector store (spec §4.4,
§6) overwrites on matching id; a store is modelled as a list of points
with insert-or-overwrite upsert. -/

def slidingChunksFuel (chunkSize overlap : Nat) : Nat → List Char → List (List Char)
  | _, [] => []
  | 0, l => [l]
  | fuel + 1, l =>
      if l.length ≤ chunkSize then [l]
      else l.take chunkSize ::
        slidingChunksFuel chunkSize overlap fuel (l.drop (chunkSize - overlap))

def slidingChunks (chunkSize overlap : Nat) (text : List Char) : List (List Char) :=
  slidingChunksFuel chunkSize overlap text.length text

abbrev PointId := String × Nat

structure VPoint where
  id : PointId
  text : List Char
deriving DecidableEq, Repr

/-- Deterministic vector-store id (before hashing) of one chunk. -/
def pointId (sourcePath : String) (chunkIndex : Nat) : PointId := (sourcePath, chunkIndex)

def filePointsAux (sourcePath : String) (i : Nat) : List (List Char) → List VPoint
  | [] => []
  | c :: rest => ⟨pointId sourcePath i, c⟩ :: filePointsAux sourcePath (i + 1) rest

def filePoints (chunkSize overlap : Nat) (sourcePath : String) (text : List Char) :
    List VPoint :=
  filePointsAux sourcePath 0 (slidingChunks chunkSize overlap text)

def upsertOne (store : List VPoint) (p : VPoint) : List VPoint :=
  if store.any (fun q => decide (q.id = p.id)) then
    store.map (fun q => if q.id = p.id then p else q)
  else store ++ [p]

def upsertPoints (store : List VPoint) (pts : List VPoint) : List VPoint :=
  pts.foldl upsertOne store

def ingestFile (chunkSize overlap : Nat) (store : List VPoint) (sourcePath : String)
    (text : List Char) : List VPoint :=
  upsertPoints store (filePoints chunkSize overlap sourcePath text)

def lookupId (store : List VPoint) (i : PointId) : Option VPoint :=
  store.find? (fun q => decide (q.id = i))

theorem slidingChunksFuel_get? (chunkSize overlap : Nat) (hov : overlap < chunkSize) :
    ∀ i fuel (l : List Char), l.length ≤ fuel →
      i < (slidingChunksFuel chunkSize overlap fuel l).length →
      (slidingChunksFuel chunkSize overlap fuel l).get? i =
        some ((l.drop (i * (chunkSize - overlap))).take chunkSize) := by
  intro i
  induction i with
  | zero =>
      intro fuel l hl h
      cases l with
      | nil => simp [slidingChunksFuel] at h
      | cons c rest =>
          cases fuel with
          | zero => simp at hl
          | succ f =>
              simp only [slidingChunksFuel]
              by_cases hle : (c :: rest).length ≤ chunkSize
              · rw [if_pos hle]
                simp [List.take_of_length_le hle]
              · rw [if_neg hle]
                simp
  | succ i ih =>
      intro fuel l hl h
      cases l with
      | nil => simp [slidingChunksFuel] at h
      | cons c rest =>
          cases fuel with
          | zero => simp at hl
          | succ f =>
              have hstep : 0 < chunkSize - overlap := by omega
              by_cases hle : (c :: rest).length ≤ chunkSize
              · exfalso
                simp only [slidingChunksFuel, if_pos hle, List.length_singleton] at h
                omega
              · have hrec := ih f ((c :: rest).drop (chunkSize - overlap))
                  (by rw [List.length_drop]; simp only [List.length_cons] at hl ⊢; omega)
                simp only [slidingChunksFuel, if_neg hle] at h ⊢
                rw [List.get?_cons_succ]
                simp only [List.length_cons, Nat.add_lt_add_iff_right] at h
                rw [hrec (by simpa using h)]
                rw [List.drop_drop]
                congr 3
                ring

theorem filePointsAux_map_id (sourcePath : String) :
    ∀ (l : List (List Char)) (i : Nat),
      (filePointsAux sourcePath i l).map (fun p => p.id) =
        (List.range l.length).map (fun k => pointId sourcePath (i + k)) := by
  intro l
  induction l with
  | nil => intro i; rfl
  | cons c rest ih =>
      intro i
      simp only [filePointsAux, List.map_cons, List.length_cons, List.range_succ_eq_map,
        List.map_map, ih (i + 1)]
      congr 1
      simp [pointId]
      omega

theorem filePoints_ids (chunkSize overlap : Nat) (sourcePath : String) (text : List Char) :
    (filePoints chunkSize overlap sourcePath text).map (fun p => p.id) =
      (List.range (slidingChunks chunkSize overlap text).length).map
        (fun k => pointId sourcePath k) := by
  rw [filePoints, filePointsAux_map_id]
  apply List.map_congr_left
  intro k _
  simp

theorem filePoints_ids_nodup (chunkSize overlap : Nat) (sourcePath : String)
    (text : List Char) :
    ((filePoints chunkSize overlap sourcePath text).map (fun p => p.id)).Nodup := by
  rw [filePoints_ids]
  apply List.Nodup.map
  · intro a b hab
    simpa [pointId] using hab
  · exact List.nodup_range _

theorem upsertOne_map_id_of_any (store : List VPoint) (p : VPoint)
    (h : store.any (fun q => decide (q.id = p.id)) = true) :
    (upsertOne store p).map (fun q => q.id) = store.map (fun q => q.id) := by
  simp only [upsertOne, h, if_true, List.map_map]
  apply List.map_congr_left
  intro q _
  by_cases hq : q.id = p.id <;> simp [Function.comp, hq]

theorem upsertOne_keys_nodup (store : List VPoint) (p : VPoint)
    (hk : (store.map (fun q => q.id)).Nodup) :
    ((upsertOne store p).map (fun q => q.id)).Nodup := by
  cases hany : store.any (fun q => decide (q.id = p.id)) with
  | true => rw [upsertOne_map_id_of_any store p hany]; exact hk
  | false =>
      have hnot : p.id ∉ store.map (fun q => q.id) := by
        intro hmem
        obtain ⟨q, hq, hid⟩ := List.mem_map.mp hmem
        have : store.any (fun r => decide (r.id = p.id)) = true :=
          List.any_eq_true.mpr ⟨q, hq, by simp [hid]⟩
        rw [hany] at this
        exact Bool.false_ne_true this
      simp only [upsertOne, hany, Bool.false_eq_true, if_false, List.map_append, List.map_cons,
        List.map_nil]
      rw [List.nodup_append]
      refine ⟨hk, List.nodup_singleton _, ?_⟩
      intro a ha hb
      simp only [List.mem_singleton] at hb
      subst hb
      exact hnot ha

theorem lookupId_upsertOne_self (store : List VPoint) (p : VPoint) :
    lookupId (upsertOne store p) p.id = some p := by
  induction store with
  | nil => simp [upsertOne, lookupId]
  | cons q rest ih =>
      by_cases hq : q.id = p.id
      · have hany : (q :: rest).any (fun r => decide (r.id = p.id)) = true := by
          simp [List.any_cons, hq]
        simp only [upsertOne, hany, if_true, List.map_cons, if_pos hq]
        simp [lookupId]
      · have hany : (q :: rest).any (fun r => decide (r.id = p.id)) =
            rest.any (fun r => decide (r.id = p.id)) := by
          simp [List.any_cons, hq]
        cases hrest : rest.any (fun r => decide (r.id = p.id)) with
        | true =>
            simp only [upsertOne, hany, hrest, if_true, List.map_cons, if_neg hq]
            have hmap : rest.map (fun r => if r.id = p.id then p else r) = upsertOne rest p := by
              simp [upsertOne, hrest]
            rw [lookupId, List.find?_cons_of_neg _ (by simp [hq]), hmap]
            exact ih
        | false =>
            simp only [upsertOne, hany, hrest, Bool.false_eq_true, if_false, List.cons_append]
            have happ : rest ++ [p] = upsertOne rest p := by
              simp [upsertOne, hrest]
            rw [lookupId, List.find?_cons_of_neg _ (by simp [hq]), happ]
            exact ih

theorem find?_replace_ne (store : List VPoint) (p : VPoint) (i : PointId) (hne : p.id ≠ i) :
    (store.map (fun q => if q.id = p.id then p else q)).find? (fun q => decide (q.id = i)) =
      store.find? (fun q => decide (q.id = i)) := by
  induction store with
  | nil => rfl
  | cons q rest ih =>
      by_cases hq : q.id = p.id
      · simp only [List.map_cons, if_pos hq]
        rw [List.find?_cons_of_neg _ (by simp [hne]),
          List.find?_cons_of_neg _ (by simp [hq, hne])]
        exact ih
      · simp only [List.map_cons, if_neg hq]
        by_cases hqi : q.id = i
        · rw [List.find?_cons_of_pos _ (by simp [hqi]), List.find?_cons_of_pos _ (by simp [hqi])]
        · rw [List.find?_cons_of_neg _ (by simp [hqi]), List.find?_cons_of_neg _ (by simp [hqi])]
          exact ih

theorem find?_append_single_ne (store : List VPoint) (p : VPoint) (i : PointId)
    (hne : p.id ≠ i) :
    (store ++ [p]).find? (fun q => decide (q.id = i)) =
      store.find? (fun q => decide (q.id = i)) := by
  induction store with
  | nil =>
      simp only [List.nil_append]
      rw [List.find?_cons_of_neg _ (by simp [hne])]
  | cons q rest ih =>
      by_cases hqi : q.id = i
      · simp only [List.cons_append]
        rw [List.find?_cons_of_pos _ (by simp [hqi]), List.find?_cons_of_pos _ (by simp [hqi])]
      · simp only [List.cons_append]
        rw [List.find?_cons_of_neg _ (by simp [hqi]), List.find?_cons_of_neg _ (by simp [hqi])]
        exact ih

theorem lookupId_upsertOne_ne (store : List VPoint) (p : VPoint) (i : PointId)
    (hne : p.id ≠ i) : lookupId (upsertOne store p) i = lookupId store i := by
  cases hany : store.any (fun q => decide (q.id = p.id)) with
  | true =>
      simp only [upsertOne, hany, if_true, lookupId]
      exact find?_replace_ne store p i hne
  | false =>
      simp only [upsertOne, hany, Bool.false_eq_true, if_false, lookupId]
      exact find?_append_single_ne store p i hne

theorem lookupId_upsertPoints_ne (pts : List VPoint) :
    ∀ (store : List VPoint) (i : PointId), (∀ p ∈ pts, p.id ≠ i) →
      lookupId (upsertPoints store pts) i = lookupId store i := by
  induction pts with
  | nil => intro store i _; rfl
  | cons p rest ih =>
      intro store i h
      show lookupId (upsertPoints (upsertOne store p) rest) i = _
      rw [ih (upsertOne store p) i (fun q hq => h q (List.mem_cons_of_mem p hq))]
      exact lookupId_upsertOne_ne store p i (h p (List.mem_cons_self p rest))

theorem replace_eq_self (store : List VPoint) (p : VPoint)
    (hk : (store.map (fun q => q.id)).Nodup)
    (hfind : lookupId store p.id = some p) :
    store.map (fun q => if q.id = p.id then p else q) = store := by
  induction store with
  | nil => rfl
  | cons q rest ih =>
      simp only [List.map_cons, List.nodup_cons] at hk
      by_cases hq : q.id = p.id
      · have hqp : q = p := by
          rw [lookupId, List.find?_cons_of_pos _ (by simp [hq])] at hfind
          exact Option.some.inj hfind
        have hrest : ∀ r ∈ rest, r.id ≠ p.id := by
          intro r hr hrid
          apply hk.1
          rw [hq, ← hrid]
          exact List.mem_map_of_mem (fun s => s.id) hr
        have hmap : rest.map (fun r => if r.id = p.id then p else r) = rest.map id :=
          List.map_congr_left (fun r hr => by simp [hrest r hr])
        rw [List.map_cons, if_pos hq, hmap, List.map_id, hqp]
      · rw [lookupId, List.find?_cons_of_neg _ (by simp [hq])] at hfind
        simp only [List.map_cons, if_neg hq]
        rw [ih hk.2 hfind]

theorem upsertOne_eq_self (store : List VPoint) (p : VPoint)
    (hk : (store.map (fun q => q.id)).Nodup)
    (hfind : lookupId store p.id = some p) :
    upsertOne store p = store := by
  have hmem : p ∈ store := by
    have := List.mem_of_find?_eq_some hfind
    exact this
  have hany : store.any (fun q => decide (q.id = p.id)) = true :=
    List.any_eq_true.mpr ⟨p, hmem, by simp⟩
  simp only [upsertOne, hany, if_true]
  exact replace_eq_self store p hk hfind

theorem upsertPoints_keys_nodup (pts : List VPoint) :
    ∀ (store : List VPoint), (store.map (fun q => q.id)).Nodup →
      ((upsertPoints store pts).map (fun q => q.id)).Nodup := by
  induction pts with
  | nil => intro store hk; exact hk
  | cons p rest ih =>
      intro store hk
      exact ih (upsertOne store p) (upsertOne_keys_nodup store p hk)

theorem lookupId_upsertPoints_self (pts : List VPoint) :
    ∀ (store : List VPoint), ((pts.map (fun q => q.id)).Nodup) →
      ∀ p ∈ pts, lookupId (upsertPoints store pts) p.id = some p := by
  induction pts with
  | nil => intro store _ p hp; simp at hp
  | cons q rest ih =>
      intro store hnd p hp
      simp only [List.map_cons, List.nodup_cons] at hnd
      cases List.mem_cons.mp hp with
      | inl hpq =>
          subst hpq
          show lookupId (upsertPoints (upsertOne store p) rest) p.id = some p
          rw [lookupId_upsertPoints_ne rest (upsertOne store p) p.id ?_]
          · exact lookupId_upsertOne_self store p
          · intro r hr hrid
            exact hnd.1 (hrid ▸ List.mem_map_of_mem (fun s => s.id) hr)
      | inr hprest =>
          exact ih (upsertOne store q) hnd.2 p hprest

theorem upsertPoints_idem (pts : List VPoint) :
    ∀ (store : List VPoint), (store.map (fun q => q.id)).Nodup →
      (pts.map (fun q => q.id)).Nodup →
      upsertPoints (upsertPoints store pts) pts = upsertPoints store pts := by
  induction pts with
  | nil => intro store _ _; rfl
  | cons p rest ih =>
      intro store hk hnd
      have hk2 : ((upsertOne store p).map (fun q => q.id)).Nodup :=
        upsertOne_keys_nodup store p hk
      have hnd2 : (rest.map (fun q => q.id)).Nodup := by
        simp only [List.map_cons, List.nodup_cons] at hnd
        exact hnd.2
      have hS : upsertPoints store (p :: rest) = upsertPoints (upsertOne store p) rest := rfl
      have hSk : ((upsertPoints store (p :: rest)).map (fun q => q.id)).Nodup := by
        rw [hS]
        exact upsertPoints_keys_nodup rest (upsertOne store p) hk2
      have hfind : lookupId (upsertPoints store (p :: rest)) p.id = some p :=
        lookupId_upsertPoints_self (p :: rest) store hnd p (List.mem_cons_self p rest)
      show upsertPoints (upsertOne (upsertPoints store (p :: rest)) p) rest =
        upsertPoints store (p :: rest)
      rw [upsertOne_eq_self (upsertPoints store (p :: rest)) p hSk hfind, hS]
      exact ih (upsertOne store p) hk2 hnd2

/-- **C1** — chunking is deterministic with explicit boundaries: for
`overlap < chunkSize` the `i`-th chunk is exactly the `chunkSize`-long
window starting at `i * (chunkSize - overlap)`, so identical text and
parameters give identical boundaries; each chunk's vector-store id is
the fixed function `pointId` of `(sourcePath, chunkIndex)`; and
re-ingesting the same file into a store with unique ids writes the very
same ids and leaves the store unchanged — it overwrites instead of
duplicating (in particular the store size does not grow). -/
theorem bulkIngest_deterministic (chunkSize overlap : Nat) (sourcePath : String)
    (text : List Char) (store : List VPoint)
    (hov : overlap < chunkSize) (hk : (store.map (fun p => p.id)).Nodup) :
    (∀ i, i < (slidingChunks chunkSize overlap text).length →
      (slidingChunks chunkSize overlap text).get? i =
        some ((text.drop (i * (chunkSize - overlap))).take chunkSize)) ∧
    (filePoints chunkSize overlap sourcePath text).map (fun p => p.id) =
      (List.range (slidingChunks chunkSize overlap text).length).map
        (fun k => pointId sourcePath k) ∧
    ingestFile chunkSize overlap (ingestFile chunkSize overlap store sourcePath text)
        sourcePath text =
      ingestFile chunkSize overlap store sourcePath text ∧
    (ingestFile chunkSize overlap (ingestFile chunkSize overlap store sourcePath text)
        sourcePath text).length =
      (ingestFile chunkSize overlap store sourcePath text).length := by
  have hidem : ingestFile chunkSize overlap
      (ingestFile chunkSize overlap store sourcePath text) sourcePath text =
      ingestFile chunkSize overlap store sourcePath text :=
    upsertPoints_idem (filePoints chunkSize overlap sourcePath text) store hk
      (filePoints_ids_nodup chunkSize overlap sourcePath text)
  refine ⟨?_, filePoints_ids chunkSize overlap sourcePath text, hidem, by rw [hidem]⟩
  intro i hi
  exact slidingChunksFuel_get? chunkSize overlap hov i text.length text (Nat.le_refl _) hi

/-- Witness for **C1** at a concrete input: chunk size 5, overlap 2, an
8-character text, an empty store — re-ingesting leaves the store
unchanged. -/
theorem bulkIngest_deterministic_witness :
    ingestFile 5 2 (ingestFile 5 2 [] "file.pdf" (String.data "abcdefgh")) "file.pdf"
        (String.data "abcdefgh") =
      ingestFile 5 2 [] "file.pdf" (String.data "abcdefgh") :=
  (bulkIngest_deterministic 5 2 "file.pdf" (String.data "abcdefgh") []
    (by norm_num) (by simp)).2.2.1

end RagHq
